import Mathlib

/-!
# Verification of the rateslib FX core (`rateslib/fx.py`)

A shallow embedding of the `FXRates` / `FXForwards` machinery of
`rateslib/fx.py`, together with proofs about the claims of the
specification.

Modelling conventions:

* Python strings are modelled as lists of code points (`Str := List Nat`);
  `pyLower` models `str.lower` on the ASCII range used by currency codes.
* Python floats are modelled as exact rationals `ℚ`.
* Dual numbers (from the `rateslib.dual` module, which is not part of the
  sources here) are modelled from the specification as a real value
  together with a total gradient map from variable names to rationals.
* `dual_solve` is abstract: `mkFXRates` takes a solver function as a
  parameter, and theorems assume that the returned vector actually solves
  the assembled linear system (the documented contract of `dual_solve`).
* Python exceptions are modelled with `Except` / dedicated result types.
-/

/-- A Python string: a list of Unicode code points. -/
abbrev Str : Type := List Nat

/-- Embed a Lean string literal as a `Str` (list of code points). -/
def lit (s : String) : Str := s.data.map Char.toNat

/-- Modelled from the spec: Python's `str.lower` on a single code point,
for the ASCII range relevant to currency codes. -/
def pyLower (c : Nat) : Nat := if 65 ≤ c ∧ c ≤ 90 then c + 32 else c

/-- Python's `str.lower` applied to a whole string. -/
def pyLowerS (s : Str) : Str := s.map pyLower

theorem pyLower_idem (c : Nat) : pyLower (pyLower c) = pyLower c := by
  unfold pyLower
  split_ifs <;> omega

theorem pyLowerS_idem (s : Str) : pyLowerS (pyLowerS s) = pyLowerS s := by
  unfold pyLowerS
  rw [List.map_map]
  exact List.map_congr_left fun c _ => pyLower_idem c

theorem pyLowerS_take (n : Nat) (s : Str) :
    pyLowerS (s.take n) = (pyLowerS s).take n := by
  unfold pyLowerS
  exact List.map_take pyLower s n

theorem pyLowerS_drop (n : Nat) (s : Str) :
    pyLowerS (s.drop n) = (pyLowerS s).drop n := by
  unfold pyLowerS
  exact List.map_drop pyLower s n

/-- The AD variable name `"fx_" ++ pair` that `FXRates` attaches to an
input pair. -/
def fxVar (pair : Str) : Str := lit "fx_" ++ pair

theorem fxVar_take (pair : Str) : (fxVar pair).take 3 = lit "fx_" := by
  have h : (lit "fx_").length = 3 := by decide
  rw [fxVar, show (3 : Nat) = (lit "fx_").length from h.symm, List.take_left]

theorem fxVar_drop (pair : Str) : (fxVar pair).drop 3 = pair := by
  have h : (lit "fx_").length = 3 := by decide
  rw [fxVar, show (3 : Nat) = (lit "fx_").length from h.symm, List.drop_left]

/-- Modelled from the spec: a first-order dual number of the
`rateslib.dual` module (not part of the given sources).  It carries a
real value and the gradient with respect to every (string-named) AD
variable; variables that do not occur in a value have gradient `0`. -/
@[ext]
structure Dual where
  real : ℚ
  grad : Str → ℚ

namespace Dual

theorem ext2 {a b : Dual} (h1 : a.real = b.real)
    (h2 : ∀ v, a.grad v = b.grad v) : a = b := by
  cases a; cases b
  simp only [mk.injEq]
  exact ⟨h1, funext h2⟩

/-- Modelled from the spec: lift a plain float to a constant dual. -/
def const (q : ℚ) : Dual := ⟨q, fun _ => 0⟩

/-- Modelled from the spec: `Dual(v, "fx_pair")`, a value with unit
gradient on a single named variable. -/
def var (q : ℚ) (w : Str) : Dual := ⟨q, fun u => if u = w then 1 else 0⟩

instance : Zero Dual := ⟨⟨0, fun _ => 0⟩⟩
instance : One Dual := ⟨⟨1, fun _ => 0⟩⟩
instance : Add Dual := ⟨fun a b => ⟨a.real + b.real, fun v => a.grad v + b.grad v⟩⟩
instance : Neg Dual := ⟨fun a => ⟨-a.real, fun v => -a.grad v⟩⟩
instance : Mul Dual :=
  ⟨fun a b => ⟨a.real * b.real, fun v => a.real * b.grad v + b.real * a.grad v⟩⟩
instance : Inv Dual := ⟨fun a => ⟨a.real⁻¹, fun v => -a.grad v / a.real ^ 2⟩⟩
instance : Div Dual := ⟨fun a b => a * b⁻¹⟩

@[simp] theorem real_zero : (0 : Dual).real = 0 := rfl
@[simp] theorem grad_zero (v : Str) : (0 : Dual).grad v = 0 := rfl
@[simp] theorem real_one : (1 : Dual).real = 1 := rfl
@[simp] theorem grad_one (v : Str) : (1 : Dual).grad v = 0 := rfl
@[simp] theorem real_add (a b : Dual) : (a + b).real = a.real + b.real := rfl
@[simp] theorem grad_add (a b : Dual) (v : Str) :
    (a + b).grad v = a.grad v + b.grad v := rfl
@[simp] theorem real_neg (a : Dual) : (-a).real = -a.real := rfl
@[simp] theorem grad_neg (a : Dual) (v : Str) : (-a).grad v = -a.grad v := rfl
@[simp] theorem real_mul (a b : Dual) : (a * b).real = a.real * b.real := rfl
@[simp] theorem grad_mul (a b : Dual) (v : Str) :
    (a * b).grad v = a.real * b.grad v + b.real * a.grad v := rfl
@[simp] theorem real_inv (a : Dual) : (a⁻¹).real = a.real⁻¹ := rfl
@[simp] theorem grad_inv (a : Dual) (v : Str) :
    (a⁻¹).grad v = -a.grad v / a.real ^ 2 := rfl
theorem div_def (a b : Dual) : a / b = a * b⁻¹ := rfl
@[simp] theorem real_const (q : ℚ) : (const q).real = q := rfl
@[simp] theorem grad_const (q : ℚ) (v : Str) : (const q).grad v = 0 := rfl
@[simp] theorem real_var (q : ℚ) (w : Str) : (var q w).real = q := rfl
@[simp] theorem grad_var (q : ℚ) (w v : Str) :
    (var q w).grad v = if v = w then 1 else 0 := rfl

instance : CommRing Dual where
  add_assoc a b c := ext2 (by simp [add_assoc]) (fun v => by simp [add_assoc])
  zero_add a := ext2 (by simp) (fun v => by simp)
  add_zero a := ext2 (by simp) (fun v => by simp)
  add_comm a b := ext2 (by simp [add_comm]) (fun v => by simp [add_comm])
  neg_add_cancel a := ext2 (by simp) (fun v => by simp)
  mul_assoc a b c := ext2 (by simp [mul_assoc]) (fun v => by simp; ring)
  one_mul a := ext2 (by simp) (fun v => by simp)
  mul_one a := ext2 (by simp) (fun v => by simp)
  left_distrib a b c := ext2 (by simp [mul_add]) (fun v => by simp; ring)
  right_distrib a b c := ext2 (by simp [add_mul]) (fun v => by simp; ring)
  mul_comm a b := ext2 (by simp [mul_comm]) (fun v => by simp; ring)
  zero_mul a := ext2 (by simp) (fun v => by simp)
  mul_zero a := ext2 (by simp) (fun v => by simp)
  nsmul := nsmulRec
  zsmul := zsmulRec

@[simp] theorem const_zero : const 0 = 0 := rfl
@[simp] theorem const_one : const 1 = 1 := rfl

theorem const_add (p q : ℚ) : const (p + q) = const p + const q :=
  ext2 (by simp) (fun v => by simp)

theorem const_mul (p q : ℚ) : const (p * q) = const p * const q :=
  ext2 (by simp) (fun v => by simp)

/-- A dual with non-zero real part is invertible. -/
theorem mul_inv_cancel_of_real_ne {a : Dual} (h : a.real ≠ 0) :
    a * a⁻¹ = 1 := by
  refine ext2 ?_ fun v => ?_
  · simp [mul_inv_cancel₀ h]
  · simp only [grad_mul, real_inv, grad_inv, grad_one]
    field_simp
    ring

theorem inv_mul_cancel_of_real_ne {a : Dual} (h : a.real ≠ 0) :
    a⁻¹ * a = 1 := by
  rw [mul_comm]
  exact mul_inv_cancel_of_real_ne h

theorem real_listSum (l : List Dual) : l.sum.real = (l.map real).sum := by
  induction l with
  | nil => simp
  | cons a t ih => simp [ih]

theorem grad_listSum (l : List Dual) (v : Str) :
    l.sum.grad v = (l.map fun d => d.grad v).sum := by
  induction l with
  | nil => simp
  | cons a t ih => simp [ih]

end Dual

/-! ## Ordered-dictionary utilities (Python `dict` semantics) -/

/-- Python's `dict.fromkeys`: deduplicate a list of keys keeping the first
occurrence of each key, preserving order. -/
def fromKeys : List Str → List Str
  | [] => []
  | k :: ks => k :: (fromKeys ks).filter (fun x => x ≠ k)

theorem mem_fromKeys (a : Str) : ∀ l : List Str, a ∈ fromKeys l ↔ a ∈ l := by
  intro l
  induction l with
  | nil => simp [fromKeys]
  | cons k ks ih =>
    simp only [fromKeys, List.mem_cons, List.mem_filter, ih, decide_eq_true_eq]
    constructor
    · rintro (h | ⟨h, _⟩) <;> simp [h]
    · rintro (h | h)
      · exact Or.inl h
      · by_cases hk : a = k
        · exact Or.inl hk
        · exact Or.inr ⟨h, hk⟩

theorem nodup_fromKeys : ∀ l : List Str, (fromKeys l).Nodup := by
  intro l
  induction l with
  | nil => simp [fromKeys]
  | cons k ks ih =>
    simp only [fromKeys, List.nodup_cons]
    refine ⟨fun hmem => ?_, ih.filter _⟩
    have := (List.mem_filter.mp hmem).2
    simp at this

/-- Insert a key at the end of a list unless it is already present. -/
def insertNew (l : List Str) (c : Str) : List Str := if c ∈ l then l else l ++ [c]

theorem filter_filter_comm (p q : Str → Prop) [DecidablePred p] [DecidablePred q]
    (l : List Str) :
    (l.filter fun x => decide (p x)).filter (fun x => decide (q x)) =
      (l.filter fun x => decide (q x)).filter (fun x => decide (p x)) := by
  induction l with
  | nil => rfl
  | cons a t ih =>
    by_cases hp : p a <;> by_cases hq : q a <;>
      simp [List.filter_cons, hp, hq, ih]

/-- `fromKeys` is the same as walking the key list left to right and
appending each key not already seen. -/
theorem fromKeys_eq_foldl (l : List Str) :
    fromKeys l = l.foldl insertNew [] := by
  suffices h : ∀ (l : List Str) (acc : List Str),
      l.foldl insertNew acc = acc ++ (fromKeys l).filter (fun x => x ∉ acc) by
    rw [h l []]
    simp [List.filter_eq_self]
  intro l
  induction l with
  | nil => intro acc; simp [fromKeys]
  | cons k ks ih =>
    intro acc
    rw [List.foldl_cons, ih (insertNew acc k)]
    show _ = acc ++ (fromKeys (k :: ks)).filter (fun x => x ∉ acc)
    rw [show fromKeys (k :: ks) = k :: (fromKeys ks).filter (fun x => x ≠ k) from rfl]
    by_cases hk : k ∈ acc
    · have hins : insertNew acc k = acc := if_pos hk
      rw [hins, List.filter_cons]
      have hkd : decide (k ∉ acc) = false := by simp [hk]
      rw [hkd]
      simp only [Bool.false_eq_true, if_false]
      congr 1
      rw [List.filter_filter]
      refine List.filter_congr fun x hx => ?_
      by_cases hxk : x = k
      · subst hxk; simp [hk]
      · simp [hxk]
    · have hins : insertNew acc k = acc ++ [k] := if_neg hk
      rw [hins, List.filter_cons]
      have hkd : decide (k ∉ acc) = true := by simp [hk]
      rw [hkd]
      simp only [if_true, List.append_assoc, List.singleton_append]
      congr 2
      rw [List.filter_filter]
      refine List.filter_congr fun x hx => ?_
      by_cases h1 : x = k <;> by_cases h2 : x ∈ acc <;>
        simp [h1, h2, List.mem_append]

/-- The last value associated to key `k` in an association list, with
default `v` (helper for Python dict-comprehension semantics). -/
def lastVal (k : Str) (v : α) : List (Str × α) → α
  | [] => v
  | kv :: rest => lastVal k (if kv.1 = k then kv.2 else v) rest

/-- Build a Python dict from an association list: keys are ordered by
first appearance, and the value of each key is its last assignment. -/
def toDict : List (Str × α) → List (Str × α)
  | [] => []
  | (k, v) :: rest => (k, lastVal k v rest) :: (toDict rest).filter (fun kv => kv.1 ≠ k)

theorem lastVal_mem (k : Str) (v : α) :
    ∀ l : List (Str × α), lastVal k v l = v ∨ (k, lastVal k v l) ∈ l := by
  intro l
  induction l generalizing v with
  | nil => exact Or.inl rfl
  | cons kv rest ih =>
    rcases kv with ⟨k2, v2⟩
    simp only [lastVal]
    rcases ih (if k2 = k then v2 else v) with h | h
    · rw [h]
      by_cases hk : k2 = k
      · right
        rw [if_pos hk, ← hk]
        exact List.mem_cons_self _ _
      · rw [if_neg hk]
        exact Or.inl rfl
    · right
      exact List.mem_cons_of_mem _ h

theorem mem_toDict_sub (kv : Str × α) :
    ∀ l : List (Str × α), kv ∈ toDict l → kv ∈ l := by
  intro l
  induction l with
  | nil => simp [toDict]
  | cons hd rest ih =>
    rcases hd with ⟨k, v⟩
    simp only [toDict, List.mem_cons]
    rintro (h | h)
    · subst h
      rcases lastVal_mem k v rest with h2 | h2
      · rw [h2]
        exact Or.inl rfl
      · exact Or.inr h2
    · exact Or.inr (ih (List.mem_of_mem_filter h))

theorem map_fst_filter_ne (k : Str) (l : List (Str × α)) :
    (l.filter fun kv => kv.1 ≠ k).map Prod.fst =
      (l.map Prod.fst).filter (fun x => x ≠ k) := by
  induction l with
  | nil => rfl
  | cons kv t ih =>
    rw [List.map_cons, List.filter_cons, List.filter_cons]
    by_cases hk : kv.1 = k
    · have h1 : decide (kv.1 ≠ k) = false := by simp [hk]
      rw [h1]
      simp only [Bool.false_eq_true, if_false]
      exact ih
    · have h1 : decide (kv.1 ≠ k) = true := by simp [hk]
      rw [h1]
      simp only [if_true, List.map_cons]
      rw [ih]

theorem map_fst_toDict : ∀ l : List (Str × α),
    (toDict l).map Prod.fst = fromKeys (l.map Prod.fst) := by
  intro l
  induction l with
  | nil => rfl
  | cons hd rest ih =>
    rcases hd with ⟨k, v⟩
    simp only [toDict, List.map_cons, fromKeys]
    congr 1
    rw [map_fst_filter_ne, ih]

theorem nodup_map_fst_toDict (l : List (Str × α)) :
    ((toDict l).map Prod.fst).Nodup := by
  rw [map_fst_toDict]
  exact nodup_fromKeys _

/-- Association-list lookup (Python `d[k]` made total via `Option`). -/
def dget (k : Str) : List (Str × α) → Option α
  | [] => none
  | kv :: rest => if kv.1 = k then some kv.2 else dget k rest

/-! ## Index of a currency in the ordered currency list -/

/-- The index a Python dict `{currency: i}` assigns: position of the first
occurrence in the list (list length if absent). -/
def idxOf (c : Str) : List Str → Nat
  | [] => 0
  | k :: ks => if k = c then 0 else idxOf c ks + 1

theorem idxOf_lt_length {c : Str} : ∀ {l : List Str}, c ∈ l → idxOf c l < l.length := by
  intro l
  induction l with
  | nil => simp
  | cons k ks ih =>
    intro hmem
    simp only [idxOf]
    by_cases hk : k = c
    · simp [hk]
    · rw [if_neg hk]
      have : c ∈ ks := by
        rcases List.mem_cons.mp hmem with h | h
        · exact absurd h.symm hk
        · exact h
      simpa using ih this

theorem get?_idxOf {c : Str} : ∀ {l : List Str}, c ∈ l → l.get? (idxOf c l) = some c := by
  intro l
  induction l with
  | nil => simp
  | cons k ks ih =>
    intro hmem
    simp only [idxOf]
    by_cases hk : k = c
    · simp [hk]
    · rw [if_neg hk]
      have : c ∈ ks := by
        rcases List.mem_cons.mp hmem with h | h
        · exact absurd h.symm hk
        · exact h
      simpa using ih this

theorem idxOf_eq_of_get? {c : Str} : ∀ {l : List Str}, l.Nodup →
    ∀ {i : Nat}, l.get? i = some c → i = idxOf c l := by
  intro l
  induction l with
  | nil => intro _ i h; simp at h
  | cons k ks ih =>
    intro hnd i h
    rcases List.nodup_cons.mp hnd with ⟨hk, hnd2⟩
    match i with
    | 0 =>
      simp only [List.get?_cons_zero, Option.some.injEq] at h
      simp [idxOf, h]
    | Nat.succ j =>
      simp only [List.get?_cons_succ] at h
      have hcks : c ∈ ks := List.get?_mem h
      have hkc : k ≠ c := fun hkc => hk (hkc ▸ hcks)
      simp only [idxOf, if_neg hkc]
      exact congrArg Nat.succ (ih hnd2 h)

theorem idxOf_inj {a b : Str} {l : List Str} (hnd : l.Nodup)
    (ha : a ∈ l) (hb : b ∈ l) (h : idxOf a l = idxOf b l) : a = b := by
  have h1 := get?_idxOf ha
  have h2 := get?_idxOf hb
  rw [h] at h1
  rw [h1] at h2
  exact (Option.some.injEq _ _ ▸ h2)

theorem get?_eq_some_iff_idxOf {c : Str} {l : List Str} (hnd : l.Nodup)
    (hc : c ∈ l) (i : Nat) : l.get? i = some c ↔ i = idxOf c l := by
  constructor
  · exact idxOf_eq_of_get? hnd
  · rintro rfl
    exact get?_idxOf hc

/-! ## The `FXRates` model -/

/-- Errors raised by `FXRates`: the two `ValueError`s of the pair-count
check, the `IndexError` of default-base resolution on an empty currency
list, and the `ValueError` of `update` on foreign pairs. -/
inductive FXErr where
  | overspecified
  | underspecified
  | indexError
  | pairMismatch
deriving DecidableEq

/-- Modelled from the spec: the type of `dual_solve`, which receives the
assembled matrix `A`, the vector `b` and the dimension `q`, and returns
the solution vector.  The solver itself lives in the `rateslib.dual`
module, which is not part of the given sources; theorems that depend on
the solution assume it satisfies `A · x = b` (the documented contract). -/
def SolveFn : Type := (Nat → Nat → Dual) → (Nat → Dual) → Nat → (Nat → Dual)

/-- The canonicalized `fx_rates` dict of `FXRates.__init__`: keys
lowercased, values wrapped as `Dual(v, "fx_<pair>")`. -/
def canonRates (input : List (Str × ℚ)) : List (Str × Dual) :=
  toDict (input.map fun kv => (pyLowerS kv.1, Dual.var kv.2 (fxVar (pyLowerS kv.1))))

/-- The ordered currency list of `FXRates.__init__`:
`dict.fromkeys([p[:3] for p in pairs] + [p[3:6] for p in pairs])`. -/
def currenciesOf (pairs : List Str) : List Str :=
  fromKeys (pairs.map (fun p => p.take 3) ++ pairs.map (fun p => (p.drop 3).take 3))

/-- The matrix `A` of the linear system assembled by `FXRates.__init__`:
row `0` is `e₀`, and row `i+1` of the `i`-th pair has `-1` in the
domestic column and `1/rate` in the foreign column (the foreign entry is
written second, so it wins if the two columns coincide). -/
def buildA (fxRates : List (Str × Dual)) (ccys : List Str) : Nat → Nat → Dual :=
  fun r c =>
    if r = 0 then (if c = 0 then 1 else 0)
    else
      match fxRates.get? (r - 1) with
      | none => 0
      | some kv =>
        if c = idxOf (kv.1.drop 3) ccys then 1 / kv.2
        else if c = idxOf (kv.1.take 3) ccys then -1
        else 0

/-- The right-hand side `b` assembled by `FXRates.__init__`:
`b = ones(q)` with `b[i+1] = 0` for every pair row. -/
def bVec : Nat → Dual := fun r => if r = 0 then 1 else 0

/-- `fx_array` derived from the solved vector: identity diagonal
(`np.eye`), `x[j]/x[i]` off the diagonal. -/
def fxArrayOf (x : Nat → Dual) : Nat → Nat → Dual :=
  fun i j => if i = j then 1 else x j / x i

/-- The state of a constructed `FXRates` object. -/
structure FXRatesState where
  pairs : List Str
  currencies : List Str
  q : Nat
  base : Str
  settlement : Option Int
  fx_rates : List (Str × Dual)
  fx_vector : Nat → Dual
  fx_array : Nat → Nat → Dual

/-- A throwaway state (used only to make `Option`/`match` extractions
total). -/
def dummyState : FXRatesState :=
  ⟨[], [], 0, [], none, [], fun _ => 0, fun _ _ => 0⟩

/-- Base-currency resolution of `FXRates.__init__`: an explicit base is
lowercased; otherwise the process-wide default is used if it is a known
currency, else the first currency — an `IndexError` if there is none. -/
def resolveBase (dflt : Str) (ccys : List Str) (base : Option Str) :
    Except FXErr Str :=
  match base with
  | some b => .ok (pyLowerS b)
  | none =>
    if dflt ∈ ccys then .ok dflt
    else
      match ccys with
      | [] => .error .indexError
      | c :: _ => .ok c

/-- `FXRates.__init__`: canonicalize the rates dict, derive pairs and
currencies, resolve the base currency (IndexError on an empty currency
list without an explicit base), enforce `len(pairs) = q - 1`
(ValueError otherwise), then solve the linear system and derive
`fx_array`.  `solve` stands for `dual_solve` and `dflt` for the
process-wide `defaults.base_currency`. -/
def mkFXRates (solve : SolveFn) (dflt : Str) (input : List (Str × ℚ))
    (settlement : Option Int) (base : Option Str) : Except FXErr FXRatesState :=
  let items := canonRates input
  let ps := items.map Prod.fst
  let ccys := currenciesOf ps
  match resolveBase dflt ccys base with
  | .error e => .error e
  | .ok b0 =>
    let q := ccys.length
    if (ps.length : ℤ) > (q : ℤ) - 1 then .error .overspecified
    else if (ps.length : ℤ) < (q : ℤ) - 1 then .error .underspecified
    else
      let x := solve (buildA items ccys) bVec q
      .ok ⟨ps, ccys, q, b0, settlement, items, x, fxArrayOf x⟩

namespace FXRatesState

/-- Outcome of a Python call that can return a value, return `None`
(possibly after emitting a warning), or raise. -/
inductive PyOut (α : Type) where
  | ok (a : α)
  | retNone (warned : Bool)
  | exn

/-- The `on_error` policy accepted by `FXRates.convert`. -/
inductive OnError where
  | ignore
  | warn
  | raiseErr

/-- `FXRates.rate`: split and lowercase the pair, look both currencies up
in the currency dict (raising `KeyError` when absent) and read
`fx_array`. -/
def rate (s : FXRatesState) (pair : Str) : PyOut Dual :=
  let d := pyLowerS (pair.take 3)
  let f := pyLowerS (pair.drop 3)
  if d ∈ s.currencies ∧ f ∈ s.currencies then
    .ok (s.fx_array (idxOf d s.currencies) (idxOf f s.currencies))
  else .exn

/-- `FXRates.convert`: check both currencies, dispatching an unknown one
through the `on_error` policy, otherwise return
`value * fx_array[i, j]`. -/
def convert (s : FXRatesState) (value : Dual) (domestic : Str)
    (foreign : Option Str) (onError : OnError) : PyOut Dual :=
  let f := match foreign with | none => s.base | some x => pyLowerS x
  let d := pyLowerS domestic
  if d ∈ s.currencies ∧ f ∈ s.currencies then
    .ok (value * s.fx_array (idxOf d s.currencies) (idxOf f s.currencies))
  else
    match onError with
    | .ignore => .retNone false
    | .warn => .retNone true
    | .raiseErr => .exn

/-- `FXRates.convert_positions`: `np.sum(array * fx_array[:, j])` with
`j` the index of the (lowercased) base currency. -/
def convert_positions (s : FXRatesState) (arr : Nat → ℚ) (base : Option Str) : Dual :=
  let b := match base with | none => s.base | some x => pyLowerS x
  let j := idxOf b s.currencies
  Finset.sum (Finset.range s.q) fun i => Dual.const (arr i) * s.fx_array i j

/-- `FXRates._get_positions_from_delta`: the cash-position vector implied
by a single pair delta (the foreign slot is written after the domestic
one, matching the source's assignment order). -/
def get_positions_from_delta (s : FXRatesState) (delta : ℚ) (pair : Str)
    (base : Str) : Nat → ℚ :=
  let bI := idxOf base s.currencies
  let dI := idxOf (pair.take 3) s.currencies
  let fI := idxOf (pair.drop 3) s.currencies
  let fval := delta * (s.fx_array bI fI).real
  fun i =>
    if i = fI then -fval / (s.fx_array fI dI).real
    else if i = dI then fval
    else 0

/-- `FXRates.positions`: seed the base slot with the real part of the
value, then add `_get_positions_from_delta` for every AD variable of the
value whose name starts with `"fx_"`.  `vvars` is the `vars` tuple of the
dual `value` (the list of variable names it carries). -/
def positions (s : FXRatesState) (v : Dual) (vvars : List Str)
    (base : Option Str) : Nat → ℚ :=
  let b := match base with | none => s.base | some x => pyLowerS x
  fun i =>
    (if s.currencies.get? i = some b then v.real else 0) +
    ((vvars.map fun w =>
        if w.take 3 = lit "fx_" then
          s.get_positions_from_delta (v.grad w) (w.drop 3) b i
        else 0)).sum

/-- `FXRates.update`: lowercase the new keys, raise `ValueError` if any
lowercased key is not an existing pair, otherwise rebuild the full rates
dict (new value where supplied, `float(old)` elsewhere), run the
constructor, and copy `fx_rates`, `fx_vector` and `fx_array` onto the
existing object. -/
def update (s : FXRatesState) (solve : SolveFn) (dflt : Str)
    (new : List (Str × ℚ)) : Except FXErr FXRatesState :=
  let newDict := toDict (new.map fun kv => (pyLowerS kv.1, kv.2))
  let ps := newDict.map Prod.fst
  if ∀ p ∈ ps, p ∈ s.pairs then
    let merged := s.pairs.map fun p =>
      (p, if p ∈ ps then (dget p newDict).getD 0 else ((dget p s.fx_rates).getD 0).real)
    match mkFXRates solve dflt merged s.settlement (some s.base) with
    | .ok t =>
      .ok { s with fx_rates := t.fx_rates, fx_vector := t.fx_vector,
                   fx_array := t.fx_array }
    | .error e => .error e
  else .error .pairMismatch

end FXRatesState

/-- The contract of `dual_solve` for a constructed state: the stored
`fx_vector` solves the linear system that `__init__` assembled from the
stored rates dict and currency list. -/
def SolvesState (s : FXRatesState) : Prop :=
  ∀ r < s.q,
    (Finset.sum (Finset.range s.q) fun c =>
      buildA s.fx_rates s.currencies r c * s.fx_vector c) = bVec r

/-! ## Summation helpers -/

theorem sum_single_slot (q i : Nat) (hi : i < q) (f : Nat → Dual) :
    (Finset.sum (Finset.range q) fun c => if c = i then f c else 0) = f i := by
  rw [Finset.sum_ite_eq' (Finset.range q) i f]
  simp [hi]

theorem sum_two_slot (q i j : Nat) (hij : i ≠ j) (hi : i < q) (hj : j < q)
    (f g : Nat → Dual) :
    (Finset.sum (Finset.range q) fun c =>
      if c = i then f c else if c = j then g c else 0) = f i + g j := by
  have hsplit : ∀ c, (if c = i then f c else if c = j then g c else 0) =
      (if c = i then f c else 0) + (if c = j then g c else 0) := by
    intro c
    by_cases h1 : c = i
    · subst h1
      have h2 : ¬(c = j) := hij
      simp [h2]
    · simp [h1]
  calc (Finset.sum (Finset.range q) fun c =>
          if c = i then f c else if c = j then g c else 0)
      = (Finset.sum (Finset.range q) fun c =>
          (if c = i then f c else 0) + (if c = j then g c else 0)) := by
        exact Finset.sum_congr rfl fun c _ => hsplit c
    _ = f i + g j := by
        rw [Finset.sum_add_distrib, sum_single_slot q i hi f, sum_single_slot q j hj g]

theorem sum_list_swap (q : Nat) (l : List Str) (h : Str → Nat → Dual) :
    (Finset.sum (Finset.range q) fun c => ((l.map fun w => h w c)).sum) =
      ((l.map fun w => Finset.sum (Finset.range q) fun c => h w c)).sum := by
  induction l with
  | nil => simp
  | cons a t ih =>
    simp only [List.map_cons, List.sum_cons]
    rw [Finset.sum_add_distrib, ih]

theorem sum_indicator_list {l : List Str} (hnd : l.Nodup) (u : Str) (g : Str → ℚ) :
    ((l.map fun w => if u = w then g w else 0)).sum =
      if u ∈ l then g u else 0 := by
  induction l with
  | nil => simp
  | cons a t ih =>
    rcases List.nodup_cons.mp hnd with ⟨ha, ht⟩
    simp only [List.map_cons, List.sum_cons, ih ht]
    by_cases hu : u = a
    · subst hu
      simp [ha]
    · simp only [if_neg hu, zero_add, List.mem_cons]
      by_cases hut : u ∈ t
      · simp [hut, hu]
      · simp [hut, hu]

theorem listSum_mul (l : List ℚ) (X : Dual) :
    Dual.const l.sum * X = ((l.map fun a => Dual.const a * X)).sum := by
  induction l with
  | nil => simp
  | cons a t ih =>
    simp only [List.sum_cons, Dual.const_add, List.map_cons, add_mul, ih]

/-! ## Facts about a successfully constructed `FXRates` -/

theorem mkFXRates_ok_fields {solve : SolveFn} {dflt : Str}
    {input : List (Str × ℚ)} {stl : Option Int} {base : Option Str}
    {s : FXRatesState}
    (h : mkFXRates solve dflt input stl base = .ok s) :
    s.fx_rates = canonRates input ∧
    s.pairs = (canonRates input).map Prod.fst ∧
    s.currencies = currenciesOf s.pairs ∧
    s.q = s.currencies.length ∧
    s.settlement = stl ∧
    s.fx_array = fxArrayOf s.fx_vector ∧
    ((s.pairs.length : ℤ) = (s.q : ℤ) - 1) := by
  simp only [mkFXRates] at h
  split at h
  · exact absurd h (by simp)
  · split at h
    · exact absurd h (by simp)
    · split at h
      · exact absurd h (by simp)
      · rw [Except.ok.injEq] at h
        subst h
        refine ⟨rfl, rfl, rfl, rfl, rfl, rfl, ?_⟩
        simp only at *
        omega

theorem nodup_currenciesOf (pairs : List Str) : (currenciesOf pairs).Nodup :=
  nodup_fromKeys _

theorem mem_currenciesOf_dom {p : Str} {pairs : List Str} (h : p ∈ pairs) :
    p.take 3 ∈ currenciesOf pairs := by
  rw [currenciesOf, mem_fromKeys]
  exact List.mem_append_left _ (List.mem_map_of_mem _ h)

theorem mem_currenciesOf_for {p : Str} {pairs : List Str} (h : p ∈ pairs) :
    (p.drop 3).take 3 ∈ currenciesOf pairs := by
  rw [currenciesOf, mem_fromKeys]
  exact List.mem_append_right _ (List.mem_map_of_mem _ h)

theorem drop_take_eq_drop {p : Str} (h : p.length = 6) :
    (p.drop 3).take 3 = p.drop 3 := by
  apply List.take_of_length_le
  simp [h]

theorem mkFXRates_pairs_lowered {solve : SolveFn} {dflt : Str}
    {input : List (Str × ℚ)} {stl : Option Int} {base : Option Str}
    {s : FXRatesState}
    (h : mkFXRates solve dflt input stl base = .ok s) :
    ∀ p ∈ s.pairs, pyLowerS p = p := by
  intro p hp
  rw [(mkFXRates_ok_fields h).2.1, canonRates, map_fst_toDict, mem_fromKeys,
    List.map_map] at hp
  rcases List.mem_map.mp hp with ⟨kv, _, hkv⟩
  rw [← hkv]
  exact pyLowerS_idem _

theorem mkFXRates_rates_wrapped {solve : SolveFn} {dflt : Str}
    {input : List (Str × ℚ)} {stl : Option Int} {base : Option Str}
    {s : FXRatesState}
    (h : mkFXRates solve dflt input stl base = .ok s) :
    ∀ kv ∈ s.fx_rates, kv.2 = Dual.var kv.2.real (fxVar kv.1) := by
  intro kv hkv
  rw [(mkFXRates_ok_fields h).1, canonRates] at hkv
  have hmem := mem_toDict_sub _ _ hkv
  rcases List.mem_map.mp hmem with ⟨kv0, _, hkv0⟩
  rw [← hkv0]
  rfl

theorem mkFXRates_currencies_lowered {solve : SolveFn} {dflt : Str}
    {input : List (Str × ℚ)} {stl : Option Int} {base : Option Str}
    {s : FXRatesState}
    (h : mkFXRates solve dflt input stl base = .ok s) :
    ∀ c ∈ s.currencies, pyLowerS c = c := by
  intro c hc
  have hlow := mkFXRates_pairs_lowered h
  rw [(mkFXRates_ok_fields h).2.2.1, currenciesOf, mem_fromKeys,
    List.mem_append] at hc
  rcases hc with hc | hc
  · rcases List.mem_map.mp hc with ⟨p, hp, hpc⟩
    rw [← hpc, pyLowerS_take, hlow p hp]
  · rcases List.mem_map.mp hc with ⟨p, hp, hpc⟩
    rw [← hpc, pyLowerS_take, pyLowerS_drop, hlow p hp]

theorem mkFXRates_pairs_eq_map_fst {solve : SolveFn} {dflt : Str}
    {input : List (Str × ℚ)} {stl : Option Int} {base : Option Str}
    {s : FXRatesState}
    (h : mkFXRates solve dflt input stl base = .ok s) :
    s.pairs = s.fx_rates.map Prod.fst := by
  rw [(mkFXRates_ok_fields h).2.1, (mkFXRates_ok_fields h).1]

/-- Uniform closed form of `fx_array`: on or off the diagonal it equals
`x j * (x i)⁻¹` whenever `x i` has non-zero real part. -/
theorem fxArrayOf_eq {x : Nat → Dual} {i : Nat} (hi : (x i).real ≠ 0)
    (j : Nat) : fxArrayOf x i j = x j * (x i)⁻¹ := by
  unfold fxArrayOf
  by_cases hij : i = j
  · subst hij
    rw [if_pos rfl, Dual.mul_inv_cancel_of_real_ne hi]
  · rw [if_neg hij]
    rfl

theorem real_fxArrayOf {x : Nat → Dual} {i : Nat} (hi : (x i).real ≠ 0)
    (j : Nat) : (fxArrayOf x i j).real = (x j).real * ((x i).real)⁻¹ := by
  rw [fxArrayOf_eq hi j]
  simp

/-- The structural relation that the assembled linear system imposes on
the solved vector: for every stored input pair, `x_foreign = rate · x_domestic`
(and the input rate has non-zero real part). -/
theorem pair_relation {solve : SolveFn} {dflt : Str}
    {input : List (Str × ℚ)} {stl : Option Int} {base : Option Str}
    {s : FXRatesState}
    (h : mkFXRates solve dflt input stl base = .ok s)
    (hsol : SolvesState s)
    (hx : ∀ i < s.q, (s.fx_vector i).real ≠ 0)
    {p : Str} {ρ : Dual} (hmem : (p, ρ) ∈ s.fx_rates)
    (hp6 : p.length = 6) (hne : p.take 3 ≠ p.drop 3) :
    ρ.real ≠ 0 ∧
      s.fx_vector (idxOf (p.drop 3) s.currencies) =
        ρ * s.fx_vector (idxOf (p.take 3) s.currencies) := by
  obtain ⟨hfr, hpairs, hcur, hq, -, -, hcount⟩ := mkFXRates_ok_fields h
  have hpmem : p ∈ s.pairs := by
    rw [mkFXRates_pairs_eq_map_fst h]
    exact List.mem_map_of_mem Prod.fst hmem
  have hdmem : p.take 3 ∈ s.currencies := by
    rw [hcur]
    exact mem_currenciesOf_dom hpmem
  have hfmem : p.drop 3 ∈ s.currencies := by
    rw [hcur, ← drop_take_eq_drop hp6]
    exact mem_currenciesOf_for hpmem
  set dI := idxOf (p.take 3) s.currencies with hdI
  set fI := idxOf (p.drop 3) s.currencies with hfI
  have hdlt : dI < s.q := by rw [hq]; exact idxOf_lt_length hdmem
  have hflt : fI < s.q := by rw [hq]; exact idxOf_lt_length hfmem
  have hfd : fI ≠ dI := fun hfd =>
    hne (idxOf_inj (hcur ▸ nodup_currenciesOf s.pairs) hfmem hdmem hfd).symm
  -- find the row of this pair in the assembled system
  obtain ⟨r, hr⟩ := List.get?_of_mem hmem
  have hrlen : r < s.fx_rates.length := by
    rw [List.get?_eq_some] at hr
    exact hr.1
  have hlen : s.fx_rates.length = s.pairs.length := by
    rw [mkFXRates_pairs_eq_map_fst h, List.length_map]
  have hrq : r + 1 < s.q := by omega
  have hrow := hsol (r + 1) hrq
  have hA : ∀ c, buildA s.fx_rates s.currencies (r + 1) c =
      if c = fI then 1 / ρ else if c = dI then -1 else 0 := by
    intro c
    simp only [buildA, Nat.succ_ne_zero, if_false, Nat.add_sub_cancel, hr]
  have hbv : bVec (r + 1) = 0 := by simp [bVec]
  rw [hbv] at hrow
  have hsum : (Finset.sum (Finset.range s.q) fun c =>
      buildA s.fx_rates s.currencies (r + 1) c * s.fx_vector c) =
      (1 / ρ) * s.fx_vector fI + (-1) * s.fx_vector dI := by
    have hcongr : ∀ c ∈ Finset.range s.q,
        buildA s.fx_rates s.currencies (r + 1) c * s.fx_vector c =
        (if c = fI then (1 / ρ) * s.fx_vector c
         else if c = dI then (-1) * s.fx_vector c else 0) := by
      intro c _
      rw [hA c]
      by_cases h1 : c = fI
      · simp [h1]
      · by_cases h2 : c = dI <;> simp [h1, h2]
    rw [Finset.sum_congr rfl hcongr,
      sum_two_slot s.q fI dI hfd hflt hdlt
        (fun c => (1 / ρ) * s.fx_vector c) (fun c => (-1) * s.fx_vector c)]
  rw [hsum] at hrow
  have hinv : (1 / ρ) * s.fx_vector fI = s.fx_vector dI := by
    have := hrow
    linear_combination this
  have hρ : ρ.real ≠ 0 := by
    intro h0
    have hreal : ((1 / ρ) * s.fx_vector fI).real = 0 := by
      rw [Dual.real_mul]
      have : (1 / ρ).real = 0 := by
        rw [Dual.div_def, Dual.real_mul, Dual.real_inv, h0]
        simp
      rw [this, zero_mul]
    rw [hinv] at hreal
    exact hx dI hdlt hreal
  refine ⟨hρ, ?_⟩
  have hcancel : ρ * (1 / ρ) = 1 := by
    rw [Dual.div_def, one_mul, Dual.mul_inv_cancel_of_real_ne hρ]
  calc s.fx_vector fI = (ρ * (1 / ρ)) * s.fx_vector fI := by
        rw [hcancel, one_mul]
    _ = ρ * ((1 / ρ) * s.fx_vector fI) := by ring
    _ = ρ * s.fx_vector dI := by rw [hinv]

/-- A dual with zero real part and a single gradient entry. -/
def Dual.deltaVar (c : ℚ) (w : Str) : Dual := ⟨0, fun u => if u = w then c else 0⟩

@[simp] theorem Dual.real_deltaVar (c : ℚ) (w : Str) : (Dual.deltaVar c w).real = 0 := rfl

@[simp] theorem Dual.grad_deltaVar (c : ℚ) (w u : Str) :
    (Dual.deltaVar c w).grad u = if u = w then c else 0 := rfl

/-- Revaluing the position vector of a single pair delta reproduces
exactly that delta on the pair's AD variable: the column sum
`Σᵢ positions[i] · fx_array[i, base]` of `_get_positions_from_delta`
equals the dual `⟨0, delta · ∂/∂fx_pair⟩`. -/
theorem delta_column_sum {s : FXRatesState}
    (harr : s.fx_array = fxArrayOf s.fx_vector)
    (hq : s.q = s.currencies.length)
    (hnd : s.currencies.Nodup)
    (hx : ∀ i < s.q, (s.fx_vector i).real ≠ 0)
    {b : Str} (hb : b ∈ s.currencies)
    {p : Str} (hdmem : p.take 3 ∈ s.currencies) (hfmem : p.drop 3 ∈ s.currencies)
    (hne : p.take 3 ≠ p.drop 3)
    {ρ : Dual} (hρw : ρ = Dual.var ρ.real (fxVar p)) (hρ0 : ρ.real ≠ 0)
    (hrel : s.fx_vector (idxOf (p.drop 3) s.currencies) =
      ρ * s.fx_vector (idxOf (p.take 3) s.currencies))
    (delta : ℚ) :
    (Finset.sum (Finset.range s.q) fun i =>
      Dual.const (s.get_positions_from_delta delta p b i) *
        s.fx_array i (idxOf b s.currencies)) =
      Dual.deltaVar delta (fxVar p) := by
  set x := s.fx_vector with hxdef
  set jb := idxOf b s.currencies with hjb
  set dI := idxOf (p.take 3) s.currencies with hdI
  set fI := idxOf (p.drop 3) s.currencies with hfI
  have hjblt : jb < s.q := by rw [hq]; exact idxOf_lt_length hb
  have hdlt : dI < s.q := by rw [hq]; exact idxOf_lt_length hdmem
  have hflt : fI < s.q := by rw [hq]; exact idxOf_lt_length hfmem
  have hfd : fI ≠ dI := fun hfd => hne (idxOf_inj hnd hfmem hdmem hfd).symm
  have hXb : (x jb).real ≠ 0 := hx jb hjblt
  have hXd : (x dI).real ≠ 0 := hx dI hdlt
  have hXf : (x fI).real ≠ 0 := hx fI hflt
  have hgρ : ∀ u, ρ.grad u = if u = fxVar p then 1 else 0 := by
    intro u
    conv_lhs => rw [hρw]
    simp
  have hfun : ∀ i, s.get_positions_from_delta delta p b i =
      (if i = fI then
        -(delta * (s.fx_array jb fI).real) / (s.fx_array fI dI).real
       else if i = dI then delta * (s.fx_array jb fI).real
       else 0) := fun i => rfl
  have hsum : (Finset.sum (Finset.range s.q) fun i =>
      Dual.const (s.get_positions_from_delta delta p b i) * s.fx_array i jb) =
      Dual.const (-(delta * (s.fx_array jb fI).real) / (s.fx_array fI dI).real) *
        s.fx_array fI jb +
      Dual.const (delta * (s.fx_array jb fI).real) * s.fx_array dI jb := by
    have hcongr : ∀ i ∈ Finset.range s.q,
        Dual.const (s.get_positions_from_delta delta p b i) * s.fx_array i jb =
        (if i = fI then
          Dual.const (-(delta * (s.fx_array jb fI).real) / (s.fx_array fI dI).real) *
            s.fx_array i jb
         else if i = dI then
          Dual.const (delta * (s.fx_array jb fI).real) * s.fx_array i jb
         else 0) := by
      intro i _
      rw [hfun i]
      by_cases h1 : i = fI
      · simp [h1]
      · by_cases h2 : i = dI <;> simp [h1, h2, Ne.symm hfd]
    rw [Finset.sum_congr rfl hcongr, sum_two_slot s.q fI dI hfd hflt hdlt]
  rw [hsum, harr, fxArrayOf_eq hXf jb, fxArrayOf_eq hXd jb,
    real_fxArrayOf hXb fI, real_fxArrayOf hXf dI, hrel]
  refine Dual.ext2 ?_ fun u => ?_
  · simp only [Dual.real_add, Dual.real_mul, Dual.real_const, Dual.real_inv,
      Dual.real_deltaVar]
    field_simp
    ring
  · simp only [Dual.grad_add, Dual.grad_mul, Dual.real_mul, Dual.real_const,
      Dual.grad_const, Dual.real_inv, Dual.grad_inv, Dual.grad_deltaVar, hgρ,
      mul_zero, add_zero]
    by_cases hu : u = fxVar p
    · simp only [hu, if_pos rfl]
      field_simp
      ring
    · simp only [if_neg hu]
      field_simp
      ring

/-- Claim C1 (amended): the `positions`/`convert_positions` round trip is
the identity — value and every gradient entry — for any dual value whose
AD variables are `fx_<pair>` variables of the object's input pairs. -/
theorem fxrates_positions_roundtrip {solve : SolveFn} {dflt : Str}
    {input : List (Str × ℚ)} {stl : Option Int} {base : Option Str}
    {s : FXRatesState}
    (hs : mkFXRates solve dflt input stl base = .ok s)
    (hsol : SolvesState s)
    (hx : ∀ i < s.q, (s.fx_vector i).real ≠ 0)
    (hp6 : ∀ p ∈ s.pairs, p.length = 6)
    (hdf : ∀ p ∈ s.pairs, p.take 3 ≠ p.drop 3)
    {b : Str} (hb : b ∈ s.currencies)
    (v : Dual) (vvars : List Str) (hnodup : vvars.Nodup)
    (hsupp : ∀ u, v.grad u ≠ 0 → u ∈ vvars)
    (hvars : ∀ w ∈ vvars, ∃ p ∈ s.pairs, w = fxVar p) :
    s.convert_positions (s.positions v vvars (some b)) (some b) = v := by
  obtain ⟨-, -, hcur, hq, -, harr, -⟩ := mkFXRates_ok_fields hs
  have hndc : s.currencies.Nodup := hcur ▸ nodup_currenciesOf s.pairs
  have hlowb : pyLowerS b = b := mkFXRates_currencies_lowered hs b hb
  set jb := idxOf b s.currencies with hjb
  have hjblt : jb < s.q := by rw [hq]; exact idxOf_lt_length hb
  simp only [FXRatesState.convert_positions, FXRatesState.positions, hlowb]
  have hsplit : ∀ i ∈ Finset.range s.q,
      Dual.const ((if s.currencies.get? i = some b then v.real else 0) +
        ((vvars.map fun w =>
          if w.take 3 = lit "fx_" then
            s.get_positions_from_delta (v.grad w) (w.drop 3) b i
          else 0)).sum) * s.fx_array i jb =
      Dual.const (if s.currencies.get? i = some b then v.real else 0) *
        s.fx_array i jb +
      Dual.const ((vvars.map fun w =>
          if w.take 3 = lit "fx_" then
            s.get_positions_from_delta (v.grad w) (w.drop 3) b i
          else 0)).sum * s.fx_array i jb := by
    intro i _
    rw [Dual.const_add, add_mul]
  rw [Finset.sum_congr rfl hsplit, Finset.sum_add_distrib]
  -- the seeded base slot revalues to the real part of the value
  have hinit : (Finset.sum (Finset.range s.q) fun i =>
      Dual.const (if s.currencies.get? i = some b then v.real else 0) *
        s.fx_array i jb) = Dual.const v.real := by
    have hcongr : ∀ i ∈ Finset.range s.q,
        Dual.const (if s.currencies.get? i = some b then v.real else 0) *
          s.fx_array i jb =
        (if i = jb then Dual.const v.real * s.fx_array i jb else 0) := by
      intro i _
      by_cases hij : i = jb
      · have hget : s.currencies.get? i = some b := by
          rw [get?_eq_some_iff_idxOf hndc hb i]; exact hij
        rw [if_pos hget, if_pos hij]
      · have hget : ¬ (s.currencies.get? i = some b) := by
          rw [get?_eq_some_iff_idxOf hndc hb i]; exact hij
        rw [if_neg hget, if_neg hij]
        simp
    rw [Finset.sum_congr rfl hcongr,
      sum_single_slot s.q jb hjblt (fun i => Dual.const v.real * s.fx_array i jb)]
    have : s.fx_array jb jb = 1 := by rw [harr]; simp [fxArrayOf]
    rw [this, mul_one]
  rw [hinit]
  -- each variable contributes exactly its own gradient entry
  have hvarsum : (Finset.sum (Finset.range s.q) fun i =>
      Dual.const ((vvars.map fun w =>
        if w.take 3 = lit "fx_" then
          s.get_positions_from_delta (v.grad w) (w.drop 3) b i
        else 0)).sum * s.fx_array i jb) =
      ((vvars.map fun w => Dual.deltaVar (v.grad w) w)).sum := by
    have hstep1 : ∀ i,
        Dual.const ((vvars.map fun w =>
          if w.take 3 = lit "fx_" then
            s.get_positions_from_delta (v.grad w) (w.drop 3) b i
          else 0)).sum * s.fx_array i jb =
        ((vvars.map fun w =>
          Dual.const (if w.take 3 = lit "fx_" then
            s.get_positions_from_delta (v.grad w) (w.drop 3) b i
          else 0) * s.fx_array i jb)).sum := by
      intro i
      rw [listSum_mul, List.map_map]
      rfl
    calc (Finset.sum (Finset.range s.q) fun i =>
        Dual.const ((vvars.map fun w =>
          if w.take 3 = lit "fx_" then
            s.get_positions_from_delta (v.grad w) (w.drop 3) b i
          else 0)).sum * s.fx_array i jb)
        = (Finset.sum (Finset.range s.q) fun i =>
            ((vvars.map fun w =>
              Dual.const (if w.take 3 = lit "fx_" then
                s.get_positions_from_delta (v.grad w) (w.drop 3) b i
              else 0) * s.fx_array i jb)).sum) :=
          Finset.sum_congr rfl fun i _ => hstep1 i
      _ = ((vvars.map fun w => Finset.sum (Finset.range s.q) fun i =>
            Dual.const (if w.take 3 = lit "fx_" then
              s.get_positions_from_delta (v.grad w) (w.drop 3) b i
            else 0) * s.fx_array i jb)).sum :=
          sum_list_swap s.q vvars _
      _ = ((vvars.map fun w => Dual.deltaVar (v.grad w) w)).sum := by
          refine congrArg List.sum (List.map_congr_left fun w hw => ?_)
          obtain ⟨p, hp, rfl⟩ := hvars w hw
          have hcheck : (fxVar p).take 3 = lit "fx_" := fxVar_take p
          have hdmem : p.take 3 ∈ s.currencies := by
            rw [hcur]; exact mem_currenciesOf_dom hp
          have hfmem : p.drop 3 ∈ s.currencies := by
            rw [hcur, ← drop_take_eq_drop (hp6 p hp)]
            exact mem_currenciesOf_for hp
          obtain ⟨ρ, hmem⟩ : ∃ ρ, (p, ρ) ∈ s.fx_rates := by
            have := hp
            rw [mkFXRates_pairs_eq_map_fst hs] at this
            rcases List.mem_map.mp this with ⟨kv, hkv, hfst⟩
            exact ⟨kv.2, by rw [← hfst]; exact hkv⟩
          have hρw : ρ = Dual.var ρ.real (fxVar p) :=
            mkFXRates_rates_wrapped hs (p, ρ) hmem
          obtain ⟨hρ0, hrel⟩ :=
            pair_relation hs hsol hx hmem (hp6 p hp) (hdf p hp)
          have := delta_column_sum harr hq hndc hx hb hdmem hfmem
            (hdf p hp) hρw hρ0 hrel (v.grad (fxVar p))
          rw [← this]
          refine Finset.sum_congr rfl fun i _ => ?_
          rw [if_pos hcheck, fxVar_drop]
  rw [hvarsum]
  -- assemble: the result is exactly the original dual
  refine Dual.ext2 ?_ fun u => ?_
  · rw [Dual.real_add, Dual.real_listSum, List.map_map]
    simp only [Function.comp_def, Dual.real_deltaVar, Dual.real_const]
    rw [List.sum_eq_zero fun x hx2 => (List.mem_map.mp hx2).elim
      fun w hw => hw.2.symm]
    ring
  · rw [Dual.grad_add, Dual.grad_listSum, List.map_map]
    simp only [Function.comp_def, Dual.grad_deltaVar, Dual.grad_const]
    rw [sum_indicator_list hnodup u (fun w => v.grad w)]
    by_cases hu : u ∈ vvars
    · simp [hu]
    · rw [if_neg hu]
      rcases eq_or_ne (v.grad u) 0 with h0 | h0
      · rw [h0]; ring
      · exact absurd (hsupp u h0) hu

theorem take_append_of_len3 {a : Str} (b : Str) (ha : a.length = 3) :
    (a ++ b).take 3 = a := by
  rw [show (3 : Nat) = a.length from ha.symm, List.take_left]

theorem drop_append_of_len3 {a : Str} (b : Str) (ha : a.length = 3) :
    (a ++ b).drop 3 = b := by
  rw [show (3 : Nat) = a.length from ha.symm, List.drop_left]

/-- Claim C2: for every input pair of a well-formed `FXRates` built from
plain reals, `rate` returns exactly the stored input dual — so its value
is the supplied rate and its gradient on `fx_<pair>` is `1`. -/
theorem fxrates_rate_of_input_pair {solve : SolveFn} {dflt : Str}
    {input : List (Str × ℚ)} {stl : Option Int} {base : Option Str}
    {s : FXRatesState}
    (hs : mkFXRates solve dflt input stl base = .ok s)
    (hsol : SolvesState s)
    (hx : ∀ i < s.q, (s.fx_vector i).real ≠ 0)
    {p : Str} {ρ : Dual} (hmem : (p, ρ) ∈ s.fx_rates)
    (hp6 : p.length = 6) (hne : p.take 3 ≠ p.drop 3) :
    s.rate p = FXRatesState.PyOut.ok ρ ∧ ρ.grad (fxVar p) = 1 := by
  obtain ⟨-, -, hcur, hq, -, harr, -⟩ := mkFXRates_ok_fields hs
  have hpmem : p ∈ s.pairs := by
    rw [mkFXRates_pairs_eq_map_fst hs]
    exact List.mem_map_of_mem Prod.fst hmem
  have hlowp : pyLowerS p = p := mkFXRates_pairs_lowered hs p hpmem
  have hdmem : p.take 3 ∈ s.currencies := by
    rw [hcur]; exact mem_currenciesOf_dom hpmem
  have hfmem : p.drop 3 ∈ s.currencies := by
    rw [hcur, ← drop_take_eq_drop hp6]
    exact mem_currenciesOf_for hpmem
  have hlowd : pyLowerS (p.take 3) = p.take 3 := by
    rw [pyLowerS_take, hlowp]
  have hlowf : pyLowerS (p.drop 3) = p.drop 3 := by
    rw [pyLowerS_drop, hlowp]
  obtain ⟨hρ0, hrel⟩ := pair_relation hs hsol hx hmem hp6 hne
  have hρw : ρ = Dual.var ρ.real (fxVar p) := mkFXRates_rates_wrapped hs (p, ρ) hmem
  have hfd : idxOf (p.drop 3) s.currencies ≠ idxOf (p.take 3) s.currencies :=
    fun hfd => hne (idxOf_inj (hcur ▸ nodup_currenciesOf s.pairs) hfmem hdmem hfd).symm
  have hdlt : idxOf (p.take 3) s.currencies < s.q := by
    rw [hq]; exact idxOf_lt_length hdmem
  constructor
  · simp only [FXRatesState.rate, hlowd, hlowf]
    rw [if_pos ⟨hdmem, hfmem⟩]
    have harrval : s.fx_array (idxOf (p.take 3) s.currencies)
        (idxOf (p.drop 3) s.currencies) = ρ := by
      rw [harr, fxArrayOf]
      rw [if_neg (fun h => hfd h.symm), Dual.div_def, hrel, mul_assoc,
        Dual.mul_inv_cancel_of_real_ne (hx _ hdlt), mul_one]
    rw [harrval]
  · conv_lhs => rw [hρw]
    simp

/-- Claim C3: cross rates are triangular-arbitrage-free — for any three
currencies of a well-formed `FXRates`,
`rate(a++b) * rate(b++c) = rate(a++c)` as an exact equality of duals. -/
theorem fxrates_rate_triangle {solve : SolveFn} {dflt : Str}
    {input : List (Str × ℚ)} {stl : Option Int} {base : Option Str}
    {s : FXRatesState}
    (hs : mkFXRates solve dflt input stl base = .ok s)
    (hx : ∀ i < s.q, (s.fx_vector i).real ≠ 0)
    {a b c : Str} (ha : a ∈ s.currencies) (hbm : b ∈ s.currencies)
    (hc : c ∈ s.currencies) (ha3 : a.length = 3) (hb3 : b.length = 3) :
    ∃ rab rbc rac,
      s.rate (a ++ b) = FXRatesState.PyOut.ok rab ∧
      s.rate (b ++ c) = FXRatesState.PyOut.ok rbc ∧
      s.rate (a ++ c) = FXRatesState.PyOut.ok rac ∧
      rab * rbc = rac := by
  obtain ⟨-, -, hcur, hq, -, harr, -⟩ := mkFXRates_ok_fields hs
  have hlowa : pyLowerS a = a := mkFXRates_currencies_lowered hs a ha
  have hlowb : pyLowerS b = b := mkFXRates_currencies_lowered hs b hbm
  have hlowc : pyLowerS c = c := mkFXRates_currencies_lowered hs c hc
  have hia : idxOf a s.currencies < s.q := by rw [hq]; exact idxOf_lt_length ha
  have hib : idxOf b s.currencies < s.q := by rw [hq]; exact idxOf_lt_length hbm
  have hrate : ∀ u w : Str, u.length = 3 → pyLowerS u = u → pyLowerS w = w →
      u ∈ s.currencies → w ∈ s.currencies →
      s.rate (u ++ w) = FXRatesState.PyOut.ok
        (s.fx_array (idxOf u s.currencies) (idxOf w s.currencies)) := by
    intro u w hu3 hlu hlw hum hwm
    simp only [FXRatesState.rate, take_append_of_len3 w hu3,
      drop_append_of_len3 w hu3, hlu, hlw]
    rw [if_pos ⟨hum, hwm⟩]
  refine ⟨s.fx_array (idxOf a s.currencies) (idxOf b s.currencies),
    s.fx_array (idxOf b s.currencies) (idxOf c s.currencies),
    s.fx_array (idxOf a s.currencies) (idxOf c s.currencies),
    hrate a b ha3 hlowa hlowb ha hbm, hrate b c hb3 hlowb hlowc hbm hc,
    hrate a c ha3 hlowa hlowc ha hc, ?_⟩
  rw [harr, fxArrayOf_eq (hx _ hia), fxArrayOf_eq (hx _ hib),
    fxArrayOf_eq (hx _ hia)]
  calc s.fx_vector (idxOf b s.currencies) *
        (s.fx_vector (idxOf a s.currencies))⁻¹ *
        (s.fx_vector (idxOf c s.currencies) *
          (s.fx_vector (idxOf b s.currencies))⁻¹)
      = (s.fx_vector (idxOf b s.currencies) *
          (s.fx_vector (idxOf b s.currencies))⁻¹) *
        (s.fx_vector (idxOf c s.currencies) *
          (s.fx_vector (idxOf a s.currencies))⁻¹) := by ring
    _ = s.fx_vector (idxOf c s.currencies) *
          (s.fx_vector (idxOf a s.currencies))⁻¹ := by
        rw [Dual.mul_inv_cancel_of_real_ne (hx _ hib), one_mul]

/-! ## Currency ordering (claim C5) -/

/-- Modelled from the spec claim: build the currency list by walking the
input pair list pair by pair, inserting each pair's domestic currency and
then its foreign currency if not already present. -/
def currenciesByPairWalk (pairs : List Str) : List Str :=
  pairs.foldl (fun acc p => insertNew (insertNew acc (p.take 3)) ((p.drop 3).take 3)) []

/-- Claim C5 (amended): the currency index map assigns indices in
first-appearance order over the list of all domestic currencies (in pair
order) followed by all foreign currencies (in pair order) — not
pair-by-pair — inserting each currency if not already present. -/
theorem currencies_first_appearance_doms_then_fors (pairs : List Str) :
    currenciesOf pairs =
      ((pairs.map fun p => p.take 3) ++
        (pairs.map fun p => (p.drop 3).take 3)).foldl insertNew [] :=
  fromKeys_eq_foldl _

/-- Counterexample to claim C5: for `["eurusd", "gbpjpy"]` the code
produces `[eur, gbp, usd, jpy]`, not the pair-by-pair walk order
`[eur, usd, gbp, jpy]` asserted by the spec. -/
theorem currencies_order_counterexample :
    currenciesByPairWalk [lit "eurusd", lit "gbpjpy"] =
      [lit "eur", lit "usd", lit "gbp", lit "jpy"] ∧
    currenciesOf [lit "eurusd", lit "gbpjpy"] =
      [lit "eur", lit "gbp", lit "usd", lit "jpy"] ∧
    currenciesOf [lit "eurusd", lit "gbpjpy"] ≠
      currenciesByPairWalk [lit "eurusd", lit "gbpjpy"] := by
  refine ⟨by decide, by decide, by decide⟩

/-! ## Construction errors (claim C8) -/

/-- The pair list derived during construction (`self.pairs`). -/
def initPairs (input : List (Str × ℚ)) : List Str := (canonRates input).map Prod.fst

/-- The currency list derived during construction (`self.currencies_list`). -/
def initCurrencies (input : List (Str × ℚ)) : List Str := currenciesOf (initPairs input)

theorem initCurrencies_nil {input : List (Str × ℚ)}
    (h : initCurrencies input = []) : initPairs input = [] := by
  rcases hps : initPairs input with _ | ⟨p, rest⟩
  · rfl
  · exfalso
    have hmem : p.take 3 ∈ currenciesOf (initPairs input) :=
      mem_currenciesOf_dom (by rw [hps]; exact List.mem_cons_self _ _)
    rw [show currenciesOf (initPairs input) = initCurrencies input from rfl, h] at hmem
    simp at hmem

theorem resolveBase_error {dflt : Str} {ccys : List Str} {base : Option Str}
    {e : FXErr} (h : resolveBase dflt ccys base = .error e) :
    e = .indexError ∧ ccys = [] ∧ base = none ∧ dflt ∉ ccys := by
  rcases base with _ | bb
  · simp only [resolveBase] at h
    by_cases hd : dflt ∈ ccys
    · rw [if_pos hd] at h
      simp at h
    · rw [if_neg hd] at h
      rcases ccys with _ | ⟨c, rest⟩
      · simp only at h
        rw [Except.error.injEq] at h
        exact ⟨h.symm, rfl, rfl, hd⟩
      · simp at h
  · simp only [resolveBase] at h
    simp at h

theorem resolveBase_corner {dflt : Str} {ccys : List Str} {base : Option Str}
    (hc : ccys = []) (hb : base = none) (hd : dflt ∉ ccys) :
    resolveBase dflt ccys base = .error .indexError := by
  subst hc hb
  simp only [resolveBase]
  rw [if_neg hd]

/-- Claim C8 (amended): construction fails with the overspecified /
underspecified `ValueError` exactly as the pair count compares to
`q - 1`, except for the degenerate empty rates map without an explicit
base, which fails earlier with an `IndexError` while resolving the
default base currency. -/
theorem fxrates_init_count_check (solve : SolveFn) (dflt : Str)
    (input : List (Str × ℚ)) (stl : Option Int) (b0 : Option Str) :
    (mkFXRates solve dflt input stl b0 = .error .indexError ↔
       (initCurrencies input = [] ∧ b0 = none)) ∧
    (mkFXRates solve dflt input stl b0 = .error .overspecified ↔
       (¬(initCurrencies input = [] ∧ b0 = none) ∧
         ((initPairs input).length : ℤ) > ((initCurrencies input).length : ℤ) - 1)) ∧
    (mkFXRates solve dflt input stl b0 = .error .underspecified ↔
       (¬(initCurrencies input = [] ∧ b0 = none) ∧
         ((initPairs input).length : ℤ) < ((initCurrencies input).length : ℤ) - 1)) ∧
    ((mkFXRates solve dflt input stl b0).isOk ↔
       (¬(initCurrencies input = [] ∧ b0 = none) ∧
         ((initPairs input).length : ℤ) = ((initCurrencies input).length : ℤ) - 1)) := by
  rcases hres : resolveBase dflt (currenciesOf ((canonRates input).map Prod.fst)) b0
    with e | bb0
  · obtain ⟨rfl, hc, hb, -⟩ := resolveBase_error hres
    have hval : mkFXRates solve dflt input stl b0 = .error .indexError := by
      simp only [mkFXRates, hres]
    have hcInit : initCurrencies input = [] := hc
    refine ⟨iff_of_true hval ⟨hcInit, hb⟩,
      iff_of_false (by rw [hval]; simp [Except.isOk, Except.toBool]) (fun hx => hx.1 ⟨hcInit, hb⟩),
      iff_of_false (by rw [hval]; simp [Except.isOk, Except.toBool]) (fun hx => hx.1 ⟨hcInit, hb⟩),
      iff_of_false (by rw [hval]; simp [Except.isOk, Except.toBool]) (fun hx => hx.1 ⟨hcInit, hb⟩)⟩
  · have hcornerF : ¬(initCurrencies input = [] ∧ b0 = none) := by
      rintro ⟨hc, hb⟩
      have hcRaw : currenciesOf ((canonRates input).map Prod.fst) = [] := hc
      rw [resolveBase_corner hcRaw hb (by rw [hcRaw]; simp)] at hres
      simp at hres
    by_cases h1 : ((initPairs input).length : ℤ) >
        ((initCurrencies input).length : ℤ) - 1
    · have h1raw : (((canonRates input).map Prod.fst).length : ℤ) >
          ((currenciesOf ((canonRates input).map Prod.fst)).length : ℤ) - 1 := h1
      have hval : mkFXRates solve dflt input stl b0 = .error .overspecified := by
        simp only [mkFXRates, hres]
        rw [if_pos h1raw]
      refine ⟨iff_of_false (by rw [hval]; simp [Except.isOk, Except.toBool]) (fun hx => hcornerF hx),
        iff_of_true hval ⟨hcornerF, h1⟩,
        iff_of_false (by rw [hval]; simp [Except.isOk, Except.toBool]) (fun hx => by
          have := hx.2
          omega),
        iff_of_false (by rw [hval]; simp [Except.isOk, Except.toBool]) (fun hx => by
          have := hx.2
          omega)⟩
    · by_cases h2 : ((initPairs input).length : ℤ) <
          ((initCurrencies input).length : ℤ) - 1
      · have h1raw : ¬ ((((canonRates input).map Prod.fst).length : ℤ) >
            ((currenciesOf ((canonRates input).map Prod.fst)).length : ℤ) - 1) := h1
        have h2raw : (((canonRates input).map Prod.fst).length : ℤ) <
            ((currenciesOf ((canonRates input).map Prod.fst)).length : ℤ) - 1 := h2
        have hval : mkFXRates solve dflt input stl b0 = .error .underspecified := by
          simp only [mkFXRates, hres]
          rw [if_neg h1raw, if_pos h2raw]
        refine ⟨iff_of_false (by rw [hval]; simp [Except.isOk, Except.toBool]) (fun hx => hcornerF hx),
          iff_of_false (by rw [hval]; simp [Except.isOk, Except.toBool]) (fun hx => by
            have := hx.2
            omega),
          iff_of_true hval ⟨hcornerF, h2⟩,
          iff_of_false (by rw [hval]; simp [Except.isOk, Except.toBool]) (fun hx => by
            have := hx.2
            omega)⟩
      · have h1raw : ¬ ((((canonRates input).map Prod.fst).length : ℤ) >
            ((currenciesOf ((canonRates input).map Prod.fst)).length : ℤ) - 1) := h1
        have h2raw : ¬ ((((canonRates input).map Prod.fst).length : ℤ) <
            ((currenciesOf ((canonRates input).map Prod.fst)).length : ℤ) - 1) := h2
        have hok : (mkFXRates solve dflt input stl b0).isOk = true := by
          simp only [mkFXRates, hres]
          rw [if_neg h1raw, if_neg h2raw]
          rfl
        have hnerr : ∀ e, mkFXRates solve dflt input stl b0 ≠ .error e := by
          intro e hcontra
          rw [hcontra] at hok
          simp [Except.isOk, Except.toBool] at hok
        refine ⟨iff_of_false (hnerr _) (fun hx => hcornerF hx),
          iff_of_false (hnerr _) (fun hx => by
            have := hx.2
            omega),
          iff_of_false (hnerr _) (fun hx => by
            have := hx.2
            omega),
          iff_of_true hok ⟨hcornerF, by omega⟩⟩

/-! ## Case insensitivity (claim C10) -/

theorem canonRates_lower_keys (input : List (Str × ℚ)) :
    canonRates (input.map fun kv => (pyLowerS kv.1, kv.2)) = canonRates input := by
  unfold canonRates
  rw [List.map_map]
  congr 1
  refine List.map_congr_left fun kv _ => ?_
  simp only [Function.comp_def, pyLowerS_idem]

/-- Claim C10: `rate` and `convert` are case-insensitive in their
currency arguments, and construction canonicalizes pair keys to
lowercase (so maps differing only in key case build identical objects). -/
theorem fxrates_case_insensitive :
    (∀ (s : FXRatesState) (P : Str), s.rate P = s.rate (pyLowerS P)) ∧
    (∀ (s : FXRatesState) (v : Dual) (d f : Str)
        (onErr : FXRatesState.OnError),
      s.convert v d (some f) onErr =
        s.convert v (pyLowerS d) (some (pyLowerS f)) onErr) ∧
    (∀ (solve : SolveFn) (dflt : Str) (input : List (Str × ℚ))
        (stl : Option Int) (b0 : Option Str),
      mkFXRates solve dflt input stl b0 =
        mkFXRates solve dflt (input.map fun kv => (pyLowerS kv.1, kv.2)) stl b0) := by
  refine ⟨fun s P => ?_, fun s v d f onErr => ?_, fun solve dflt input stl b0 => ?_⟩
  · simp only [FXRatesState.rate, ← pyLowerS_take, ← pyLowerS_drop, pyLowerS_idem]
  · simp only [FXRatesState.convert, pyLowerS_idem]
  · unfold mkFXRates
    rw [canonRates_lower_keys]

/-! ## `update` (claims C6 and C9) -/

theorem mkFXRates_ne_pairMismatch (solve : SolveFn) (dflt : Str)
    (input : List (Str × ℚ)) (stl : Option Int) (b0 : Option Str) :
    mkFXRates solve dflt input stl b0 ≠ .error .pairMismatch := by
  intro h
  simp only [mkFXRates] at h
  split at h
  · rename_i e heq
    rw [Except.error.injEq] at h
    subst h
    exact absurd (resolveBase_error heq).1 (by decide)
  · split at h
    · simp at h
    · split at h
      · simp at h
      · simp at h

/-- Claim C6 (amended): `update` raises the pair-mismatch `ValueError`
exactly when some (lowercased) new key is not an existing pair — a strict
subset of the pairs is accepted — and otherwise rebuilds the internal
state through the constructor on the merged rates dict. -/
theorem fxrates_update_pair_check (s : FXRatesState) (solve : SolveFn)
    (dflt : Str) (new : List (Str × ℚ)) :
    (s.update solve dflt new = .error .pairMismatch ↔
      ¬ (∀ kv ∈ new, pyLowerS kv.1 ∈ s.pairs)) ∧
    ((∀ kv ∈ new, pyLowerS kv.1 ∈ s.pairs) →
      s.update solve dflt new =
        (mkFXRates solve dflt
          (s.pairs.map fun p =>
            (p, if p ∈ (toDict (new.map fun kv => (pyLowerS kv.1, kv.2))).map Prod.fst
                then (dget p (toDict (new.map fun kv => (pyLowerS kv.1, kv.2)))).getD 0
                else ((dget p s.fx_rates).getD 0).real))
          s.settlement (some s.base)).map
          (fun t => { s with fx_rates := t.fx_rates, fx_vector := t.fx_vector,
                             fx_array := t.fx_array })) := by
  have hcond :
      (∀ p ∈ (toDict (new.map fun kv => (pyLowerS kv.1, kv.2))).map Prod.fst,
        p ∈ s.pairs) ↔ (∀ kv ∈ new, pyLowerS kv.1 ∈ s.pairs) := by
    rw [map_fst_toDict, List.map_map]
    constructor
    · intro h kv hkv
      refine h _ ?_
      rw [mem_fromKeys]
      exact List.mem_map_of_mem _ hkv
    · intro h p hp
      rw [mem_fromKeys] at hp
      rcases List.mem_map.mp hp with ⟨kv, hkv, rfl⟩
      exact h kv hkv
  constructor
  · by_cases hcnd : ∀ p ∈ (toDict (new.map fun kv =>
        (pyLowerS kv.1, kv.2))).map Prod.fst, p ∈ s.pairs
    · refine iff_of_false ?_ (fun hx => hx (hcond.mp hcnd))
      simp only [FXRatesState.update]
      rw [if_pos hcnd]
      rcases hmk : mkFXRates solve dflt
          (s.pairs.map fun p =>
            (p, if p ∈ (toDict (new.map fun kv => (pyLowerS kv.1, kv.2))).map Prod.fst
                then (dget p (toDict (new.map fun kv => (pyLowerS kv.1, kv.2)))).getD 0
                else ((dget p s.fx_rates).getD 0).real))
          s.settlement (some s.base) with e | t
      · rw [hmk]
        intro hcontra
        rw [Except.error.injEq] at hcontra
        subst hcontra
        exact mkFXRates_ne_pairMismatch _ _ _ _ _ hmk
      · rw [hmk]
        simp
    · refine iff_of_true ?_ (fun hall => hcnd (hcond.mpr hall))
      simp only [FXRatesState.update]
      rw [if_neg hcnd]
  · intro hall
    have hcnd := hcond.mpr hall
    simp only [FXRatesState.update]
    rw [if_pos hcnd]
    rcases hmk : mkFXRates solve dflt
        (s.pairs.map fun p =>
          (p, if p ∈ (toDict (new.map fun kv => (pyLowerS kv.1, kv.2))).map Prod.fst
              then (dget p (toDict (new.map fun kv => (pyLowerS kv.1, kv.2)))).getD 0
              else ((dget p s.fx_rates).getD 0).real))
        s.settlement (some s.base) with e | t
    · rw [hmk]
      rfl
    · rw [hmk]
      rfl

/-- Claim C9: a successful `update` preserves `pairs`, `currencies`
(and their order), `q`, `base` and `settlement`, replacing only
`fx_rates`, `fx_vector` and `fx_array` with the constructor's recomputed
values. -/
theorem fxrates_update_preserves_identity_fields (s : FXRatesState)
    (solve : SolveFn) (dflt : Str) (new : List (Str × ℚ)) (t : FXRatesState)
    (h : s.update solve dflt new = .ok t) :
    t.pairs = s.pairs ∧ t.currencies = s.currencies ∧ t.q = s.q ∧
    t.base = s.base ∧ t.settlement = s.settlement ∧
    ∃ u, mkFXRates solve dflt
        (s.pairs.map fun p =>
          (p, if p ∈ (toDict (new.map fun kv => (pyLowerS kv.1, kv.2))).map Prod.fst
              then (dget p (toDict (new.map fun kv => (pyLowerS kv.1, kv.2)))).getD 0
              else ((dget p s.fx_rates).getD 0).real))
        s.settlement (some s.base) = .ok u ∧
      t.fx_rates = u.fx_rates ∧ t.fx_vector = u.fx_vector ∧
      t.fx_array = u.fx_array := by
  simp only [FXRatesState.update] at h
  split at h
  · split at h
    · rename_i u hu
      rw [Except.ok.injEq] at h
      subst h
      exact ⟨rfl, rfl, rfl, rfl, rfl, u, hu, rfl, rfl, rfl⟩
    · exact absurd h (by simp)
  · exact absurd h (by simp)

/-! ## The `on_error` policy (claim C7) -/

/-- Claim C7 (amended): `convert` dispatches an unknown currency through
the `on_error` policy (`ignore` → silent `None`, `warn` → warning and
`None`, `raise` → `ValueError`), while `rate` takes no policy at all and
raises a `KeyError` whenever either currency of the pair is unknown. -/
theorem fxrates_convert_dispatch_rate_raises :
    (∀ (s : FXRatesState) (v : Dual) (d : Str) (f : Option Str),
      ¬ (pyLowerS d ∈ s.currencies ∧
          (match f with | none => s.base | some x => pyLowerS x) ∈ s.currencies) →
      s.convert v d f .ignore = .retNone false ∧
      s.convert v d f .warn = .retNone true ∧
      s.convert v d f .raiseErr = .exn) ∧
    (∀ (s : FXRatesState) (P : Str),
      ¬ (pyLowerS (P.take 3) ∈ s.currencies ∧
          pyLowerS (P.drop 3) ∈ s.currencies) →
      s.rate P = .exn) := by
  constructor
  · intro s v d f h
    refine ⟨?_, ?_, ?_⟩ <;>
      · simp only [FXRatesState.convert]
        rw [if_neg h]
  · intro s P h
    simp only [FXRatesState.rate]
    rw [if_neg h]

/-! ## `FXForwards._update_fx_rates_immediate` (claim C4) -/

/-- The `FXRates` construction call assembled by
`FXForwards._update_fx_rates_immediate`: the immediate rates dict, the
settlement date passed to the `FXRates` constructor, and the
`restate(pairs, keep_ad)` arguments applied to the result. -/
structure ImmediateCall where
  inputs : List (Str × Dual)
  settlementArg : Option Int
  restateTo : List Str
  keepAd : Bool

/-- `FXForwards._update_fx_rates_immediate` for a single-`FXRates`
framework: scan the transform matrix row by row and column by column,
skip the diagonal and zero entries, and for each remaining entry build
`pair = cash ++ coll` with rate `fx_array[row, col] * v / w`, where
`v`/`w` are the `collcoll` / `cashcoll` curves at the `FXRates`
settlement date; the collected dict becomes an `FXRates` dated at
`immediate`, restated onto the original pairs with `keep_ad = True`.
Curves are modelled from the spec as date-indexed dual-valued
discount-factor lookups (the `Curve` class is not part of the given
sources). -/
def update_fx_rates_immediate (q : Nat) (transform : Nat → Nat → ℚ)
    (ccys : List Str) (fxArr : Nat → Nat → Dual) (curves : Str → Int → Dual)
    (settlement : Int) (immediate : Int) (origPairs : List Str) : ImmediateCall :=
  { inputs := toDict ((List.range q).bind fun row =>
      (List.range q).filterMap fun col =>
        if row = col ∨ transform row col = 0 then none
        else
          let cash := ccys.getD row []
          let coll := ccys.getD col []
          let vI := curves (coll ++ coll) settlement
          let wI := curves (cash ++ coll) settlement
          some (cash ++ coll, fxArr row col * vI / wI)),
    settlementArg := some immediate,
    restateTo := origPairs,
    keepAd := true }

/-- Modelled from the spec: claim C4's description of the immediate-rates
computation — for every off-diagonal unit entry `(row = cash, col = coll)`
of the transform matrix, collect
`immediate_rate[cash ++ coll] = fx_array[cash, coll] · v_coll(settlement) / w_cashcoll(settlement)`
into a new `FXRates` dated at `immediate`, restated onto the original
input pair list with `keep_ad = true`. -/
def immediateCallFromSpec (q : Nat) (transform : Nat → Nat → ℚ)
    (ccys : List Str) (fxArr : Nat → Nat → Dual) (curves : Str → Int → Dual)
    (settlement : Int) (immediate : Int) (origPairs : List Str) : ImmediateCall :=
  { inputs := toDict ((List.range q).bind fun row =>
      (List.range q).filterMap fun col =>
        if row ≠ col ∧ transform row col = 1 then
          some (ccys.getD row [] ++ ccys.getD col [],
            fxArr row col *
              curves (ccys.getD col [] ++ ccys.getD col []) settlement /
              curves (ccys.getD row [] ++ ccys.getD col []) settlement)
        else none),
    settlementArg := some immediate,
    restateTo := origPairs,
    keepAd := true }

/-- Claim C4: on a 0/1-valued transform matrix (which
`_get_forwards_transformation_matrix` guarantees), the code's
immediate-rates computation is exactly the spec's description. -/
theorem fxforwards_immediate_rates_spec (q : Nat) (transform : Nat → Nat → ℚ)
    (ccys : List Str) (fxArr : Nat → Nat → Dual) (curves : Str → Int → Dual)
    (settlement : Int) (immediate : Int) (origPairs : List Str)
    (h01 : ∀ r c, transform r c = 0 ∨ transform r c = 1) :
    update_fx_rates_immediate q transform ccys fxArr curves settlement
        immediate origPairs =
      immediateCallFromSpec q transform ccys fxArr curves settlement
        immediate origPairs := by
  unfold update_fx_rates_immediate immediateCallFromSpec
  have hfun : (fun row => (List.range q).filterMap fun col =>
      if row = col ∨ transform row col = 0 then none
      else
        let cash := ccys.getD row []
        let coll := ccys.getD col []
        let vI := curves (coll ++ coll) settlement
        let wI := curves (cash ++ coll) settlement
        some (cash ++ coll, fxArr row col * vI / wI)) =
      (fun row => (List.range q).filterMap fun col =>
        if row ≠ col ∧ transform row col = 1 then
          some (ccys.getD row [] ++ ccys.getD col [],
            fxArr row col *
              curves (ccys.getD col [] ++ ccys.getD col []) settlement /
              curves (ccys.getD row [] ++ ccys.getD col []) settlement)
        else none) := by
    funext row
    congr 1
    funext col
    by_cases hrc : row = col
    · simp [hrc]
    · rcases h01 row col with h0 | h1
      · simp [hrc, h0]
      · have h10 : transform row col ≠ 0 := by rw [h1]; norm_num
        simp [hrc, h10, h1]
  rw [hfun]

/-! ## A concrete constructed instance: `FXRates({"usdnok": 8.0})` -/

/-- The exact solution vector of the `{"usdnok": 8}` system:
`x = (1, 8·x₀)` with the gradient of the input variable. -/
def wX : Nat → Dual := fun i => if i = 0 then 1 else Dual.var 8 (fxVar (lit "usdnok"))

/-- A concrete stand-in for `dual_solve` that returns `wX`. -/
def wSolve : SolveFn := fun _ _ _ => wX

def wInput : List (Str × ℚ) := [(lit "usdnok", 8)]

def wRun : Except FXErr FXRatesState := mkFXRates wSolve (lit "usd") wInput none none

def wState : FXRatesState :=
  match wRun with
  | .ok s => s
  | .error _ => dummyState

theorem wRun_ok : wRun = .ok wState := rfl

theorem wState_solves : SolvesState wState := by
  intro r hr
  have hr2 : r < 2 := hr
  interval_cases r
  · show (Finset.sum (Finset.range wState.q) fun c =>
      buildA wState.fx_rates wState.currencies 0 c * wState.fx_vector c) = bVec 0
    rw [show wState.q = 2 from rfl, Finset.sum_range_succ, Finset.sum_range_succ,
      Finset.sum_range_zero]
    show (0 : Dual) + 1 * 1 + 0 * wX 1 = 1
    ring
  · show (Finset.sum (Finset.range wState.q) fun c =>
      buildA wState.fx_rates wState.currencies 1 c * wState.fx_vector c) = bVec 1
    rw [show wState.q = 2 from rfl, Finset.sum_range_succ, Finset.sum_range_succ,
      Finset.sum_range_zero]
    show (0 : Dual) + (-1) * 1 +
      (1 / Dual.var 8 (fxVar (lit "usdnok"))) * Dual.var 8 (fxVar (lit "usdnok")) =
      (0 : Dual)
    have h8 : (Dual.var 8 (fxVar (lit "usdnok"))).real ≠ 0 := by
      rw [Dual.real_var]
      norm_num
    rw [Dual.div_def, one_mul, Dual.inv_mul_cancel_of_real_ne h8]
    ring

theorem wState_real_ne : ∀ i < wState.q, (wState.fx_vector i).real ≠ 0 := by
  intro i hi
  have hi2 : i < 2 := hi
  interval_cases i
  · show ((1 : Dual)).real ≠ 0
    norm_num
  · show (Dual.var 8 (fxVar (lit "usdnok"))).real ≠ 0
    rw [Dual.real_var]
    norm_num

/-! ## Witnesses and counterexamples on the concrete instance -/

/-- The dual value of scenario S3:
`Dual(125000, "fx_usdnok", [-15625])`. -/
def vWitness : Dual :=
  ⟨125000, fun u => if u = fxVar (lit "usdnok") then -15625 else 0⟩

theorem fxrates_positions_roundtrip_witness :
    wState.convert_positions
      (wState.positions vWitness [fxVar (lit "usdnok")] (some (lit "usd")))
      (some (lit "usd")) = vWitness := by
  refine fxrates_positions_roundtrip wRun_ok wState_solves wState_real_ne
    (by decide) (by decide) (by decide) vWitness _ (by decide) ?_ ?_
  · intro u h
    by_cases hu : u = fxVar (lit "usdnok")
    · simp [hu]
    · exfalso
      apply h
      simp only [vWitness]
      rw [if_neg hu]
  · intro w hw
    rw [List.mem_singleton] at hw
    subst hw
    exact ⟨lit "usdnok", by decide, rfl⟩

/-- Counterexample to claim C1 as stated: a dual carrying a gradient on a
variable that is not an `fx_<pair>` variable of the object loses that
gradient entry in the round trip. -/
def vFoo : Dual := ⟨0, fun u => if u = lit "foo" then 1 else 0⟩

theorem positions_roundtrip_foreign_var_counterexample :
    (wState.convert_positions
      (wState.positions vFoo [lit "foo"] (some (lit "usd")))
      (some (lit "usd"))).grad (lit "foo") ≠ vFoo.grad (lit "foo") := by
  have hpos : ∀ i, wState.positions vFoo [lit "foo"] (some (lit "usd")) i = 0 := by
    intro i
    simp only [FXRatesState.positions, List.map_cons, List.map_nil,
      List.sum_cons, List.sum_nil]
    rw [if_neg (by decide : ¬ ((lit "foo").take 3 = lit "fx_"))]
    rw [show vFoo.real = 0 from rfl]
    simp
  have hrt : wState.convert_positions
      (wState.positions vFoo [lit "foo"] (some (lit "usd")))
      (some (lit "usd")) = 0 := by
    simp only [FXRatesState.convert_positions, hpos, Dual.const_zero, zero_mul,
      Finset.sum_const_zero]
  rw [hrt]
  rw [show vFoo.grad (lit "foo") = 1 from by rw [show vFoo.grad (lit "foo") =
    (if lit "foo" = lit "foo" then (1 : ℚ) else 0) from rfl, if_pos rfl]]
  simp

theorem fxrates_rate_of_input_pair_witness :
    wState.rate (lit "usdnok") =
      FXRatesState.PyOut.ok (Dual.var 8 (fxVar (lit "usdnok"))) ∧
    (Dual.var 8 (fxVar (lit "usdnok"))).grad (fxVar (lit "usdnok")) = 1 := by
  refine fxrates_rate_of_input_pair wRun_ok wState_solves wState_real_ne
    ?_ (by decide) (by decide)
  rw [show wState.fx_rates =
    [(lit "usdnok", Dual.var 8 (fxVar (lit "usdnok")))] from rfl]
  exact List.mem_singleton.mpr rfl

theorem fxrates_rate_triangle_witness :
    ∃ rab rbc rac,
      wState.rate (lit "usd" ++ lit "usd") = FXRatesState.PyOut.ok rab ∧
      wState.rate (lit "usd" ++ lit "nok") = FXRatesState.PyOut.ok rbc ∧
      wState.rate (lit "usd" ++ lit "nok") = FXRatesState.PyOut.ok rac ∧
      rab * rbc = rac :=
  fxrates_rate_triangle wRun_ok wState_real_ne (by decide) (by decide)
    (by decide) (by decide) (by decide)

/-- Counterexample to claim C7 as stated: `rate` on an unknown currency
raises (`KeyError`) instead of returning `None` under any policy. -/
theorem rate_unknown_currency_raises_counterexample :
    wState.rate (lit "inrusd") = FXRatesState.PyOut.exn ∧
    (FXRatesState.PyOut.exn : FXRatesState.PyOut Dual) ≠
      FXRatesState.PyOut.retNone false := by
  constructor
  · simp only [FXRatesState.rate]
    rw [if_neg (by decide)]
  · simp

theorem fxrates_convert_dispatch_rate_raises_witness :
    (wState.convert 1 (lit "inr") (some (lit "usd"))
        FXRatesState.OnError.ignore = .retNone false ∧
     wState.convert 1 (lit "inr") (some (lit "usd"))
        FXRatesState.OnError.warn = .retNone true ∧
     wState.convert 1 (lit "inr") (some (lit "usd"))
        FXRatesState.OnError.raiseErr = .exn) ∧
    wState.rate (lit "inrusd") = FXRatesState.PyOut.exn :=
  ⟨fxrates_convert_dispatch_rate_raises.1 wState 1 (lit "inr")
      (some (lit "usd")) (by decide),
   fxrates_convert_dispatch_rate_raises.2 wState (lit "inrusd") (by decide)⟩

def wUpdRun : Except FXErr FXRatesState := wState.update wSolve (lit "usd") []

def wUpdState : FXRatesState :=
  match wUpdRun with
  | .ok t => t
  | .error _ => dummyState

theorem wUpdRun_ok : wUpdRun = .ok wUpdState := rfl

/-- Counterexample to claim C6 as stated: an `update` whose pair set is a
strict subset of the instance's pairs (here the empty dict) does not
raise — the check only rejects keys outside the existing pair set. -/
theorem update_subset_does_not_raise_counterexample :
    (wState.update wSolve (lit "usd") []).isOk = true ∧
    wState.pairs ≠ ([] : List Str) := by
  constructor
  · rw [show wState.update wSolve (lit "usd") [] = wUpdRun from rfl, wUpdRun_ok]
    rfl
  · decide

theorem fxrates_update_pair_check_witness :
    wState.update wSolve (lit "usd") [] =
      (mkFXRates wSolve (lit "usd")
        (wState.pairs.map fun p =>
          (p, if p ∈ (toDict (([] : List (Str × ℚ)).map fun kv =>
                  (pyLowerS kv.1, kv.2))).map Prod.fst
              then (dget p (toDict (([] : List (Str × ℚ)).map fun kv =>
                  (pyLowerS kv.1, kv.2)))).getD 0
              else ((dget p wState.fx_rates).getD 0).real))
        wState.settlement (some wState.base)).map
        (fun t => { wState with fx_rates := t.fx_rates,
                                fx_vector := t.fx_vector,
                                fx_array := t.fx_array }) :=
  (fxrates_update_pair_check wState wSolve (lit "usd") []).2 (by simp)

theorem fxrates_update_preserves_identity_fields_witness :
    wUpdState.pairs = wState.pairs ∧ wUpdState.currencies = wState.currencies ∧
    wUpdState.q = wState.q ∧ wUpdState.base = wState.base ∧
    wUpdState.settlement = wState.settlement ∧
    ∃ u, mkFXRates wSolve (lit "usd")
        (wState.pairs.map fun p =>
          (p, if p ∈ (toDict (([] : List (Str × ℚ)).map fun kv =>
                  (pyLowerS kv.1, kv.2))).map Prod.fst
              then (dget p (toDict (([] : List (Str × ℚ)).map fun kv =>
                  (pyLowerS kv.1, kv.2)))).getD 0
              else ((dget p wState.fx_rates).getD 0).real))
        wState.settlement (some wState.base) = .ok u ∧
      wUpdState.fx_rates = u.fx_rates ∧ wUpdState.fx_vector = u.fx_vector ∧
      wUpdState.fx_array = u.fx_array :=
  fxrates_update_preserves_identity_fields wState wSolve (lit "usd") []
    wUpdState wUpdRun_ok

def wT : Nat → Nat → ℚ := fun r c => if r = c ∨ (r = 0 ∧ c = 1) then 1 else 0

theorem fxforwards_immediate_rates_spec_witness :
    (∀ r c, wT r c = 0 ∨ wT r c = 1) ∧
    update_fx_rates_immediate 2 wT [lit "usd", lit "nok"] (fun _ _ => 1)
        (fun _ _ => 1) 0 0 [lit "usdnok"] =
      immediateCallFromSpec 2 wT [lit "usd", lit "nok"] (fun _ _ => 1)
        (fun _ _ => 1) 0 0 [lit "usdnok"] := by
  have h01 : ∀ r c, wT r c = 0 ∨ wT r c = 1 := by
    intro r c
    unfold wT
    by_cases h : (r = c ∨ (r = 0 ∧ c = 1))
    · right
      rw [if_pos h]
    · left
      rw [if_neg h]
  exact ⟨h01, fxforwards_immediate_rates_spec 2 wT [lit "usd", lit "nok"]
    (fun _ _ => 1) (fun _ _ => 1) 0 0 [lit "usdnok"] h01⟩

/-- Counterexample to claim C8 as stated: an empty rates map without an
explicit base fails with an `IndexError` (while resolving the default
base), not with the over/underspecification `ValueError`, although the
pair count differs from `q - 1`. -/
theorem empty_fxrates_index_error_counterexample :
    mkFXRates wSolve (lit "usd") [] none none = .error .indexError ∧
    (FXErr.indexError ≠ FXErr.overspecified ∧
     FXErr.indexError ≠ FXErr.underspecified) ∧
    ((initPairs ([] : List (Str × ℚ))).length : ℤ) ≠
      ((initCurrencies ([] : List (Str × ℚ))).length : ℤ) - 1 :=
  ⟨rfl, by decide, by decide⟩
